import Mathlib

/-!
Shallow embedding of `src/search_engine.py` (lab3-context-search):
tokenizer, document model, `BasicSearchEngine.search`,
`ContextSearchEngine.build_history_preferences` and
`ContextSearchEngine.search_with_context`, together with a model of the
per-record part of `load_documents`.

Python strings are modelled as `List Char`; Python floats by `ℚ` (every
constant in the program is a decimal literal and all operations are
products and sums of such literals, so rational arithmetic is exact on the
values the claims mention); Python dicts by association lists with
first-occurrence update semantics, which coincides with dict semantics
since keys are unique.
-/

namespace ContextSearch

/-- Python strings, modelled as explicit character lists. -/
abbrev Str := List Char

/-- Coerce a Lean string literal into the model type. -/
def str (s : String) : Str := s.toList

/-- Model of CPython `str.lower` on a single character, restricted to the
character ranges the repository uses: ASCII `A`-`Z`, Cyrillic `А`-`Я`
(U+0410–U+042F), the Cyrillic extensions `Ѐ`-`Џ` (U+0400–U+040F, which
include Ukrainian `Є`, `І`, `Ї`) and `Ґ` (U+0490). Every other character
is left unchanged. -/
def pyLowerChar (c : Char) : Char :=
  let n := c.toNat
  if 65 ≤ n ∧ n ≤ 90 then Char.ofNat (n + 32)
  else if 1040 ≤ n ∧ n ≤ 1071 then Char.ofNat (n + 32)
  else if 1024 ≤ n ∧ n ≤ 1039 then Char.ofNat (n + 80)
  else if n = 1168 then Char.ofNat 1169
  else c

/-- Model of CPython `str.lower` on a whole string. -/
def strLower (s : Str) : Str := s.map pyLowerChar

/-- Does `needle` occur at the very start of `hay`? (Helper for Python's
substring containment operator.) -/
def startsWith : Str → Str → Bool
  | [], _ => true
  | _ :: _, [] => false
  | a :: as, b :: bs => (a = b) && startsWith as bs

/-- Python's `needle in hay` test for strings: substring containment.
The empty needle is contained in every string, as in Python. -/
def substrIn (needle : Str) : Str → Bool
  | [] => needle.isEmpty
  | b :: bs => startsWith needle (b :: bs) || substrIn needle bs

/-- The separator characters of `tokenize` (`src/search_engine.py` line 47):
comma, period, semicolon, colon, exclamation, question mark, parentheses,
brackets, braces, straight double quote, apostrophe, guillemets `«` `»`,
newline, carriage return, tab. -/
def separators : List Char :=
  [',', '.', ';', ':', '!', '?', '(', ')', '[', ']',
   Char.ofNat 123, Char.ofNat 125, Char.ofNat 34, Char.ofNat 39,
   Char.ofNat 171, Char.ofNat 187, Char.ofNat 10, Char.ofNat 13, Char.ofNat 9]

/-- Python `text.replace(s, " ")` for a one-character pattern `s`: every
occurrence of the character is replaced by a single space. -/
def replaceChar (sep : Char) (s : Str) : Str :=
  s.map (fun a => if a = sep then ' ' else a)

/-- Python `text.split(" ")`: split at every single space, keeping empty
fragments between consecutive spaces and at the ends. -/
def splitSp : Str → List Str
  | [] => [[]]
  | c :: cs =>
    if c = ' ' then [] :: splitSp cs
    else
      match splitSp cs with
      | [] => [[c]]
      | t :: ts => (c :: t) :: ts

/-- Embedding of `tokenize` (`src/search_engine.py` lines 46-52): lowercase,
replace each separator character by a space (one sequential `replace` per
separator, as in the source), split on spaces and drop empty fragments. -/
def tokenize (text : Str) : List Str :=
  let lowered := strLower text
  let replaced := separators.foldl (fun acc s => replaceChar s acc) lowered
  (splitSp replaced).filter (fun t => ¬t.isEmpty)

/-- Embedding of the `Document` dataclass. -/
structure Document where
  id : Int
  title : Str
  content : Str
  location : Str
  category : Str
  time_tag : Str
deriving DecidableEq

/-- Embedding of the `UserContext` dataclass. `preferences` is the items
list of the Python dict, in iteration order. -/
structure UserContext where
  query_history : List Str
  location : Str
  time_segment : Str
  preferences : List (Str × ℚ)
deriving DecidableEq

/-- Embedding of `UserContext.add_query`: append the lowercased query. -/
def add_query (c : UserContext) (query : Str) : UserContext :=
  { c with query_history := c.query_history ++ [strLower query] }

/-- Python `d.get(k, dflt)` on an association-list dict: value at the first
occurrence of the key, or the default. -/
def dictGet (d : List (Str × ℚ)) (k : Str) (dflt : ℚ) : ℚ :=
  match d with
  | [] => dflt
  | p :: ps => if p.1 = k then p.2 else dictGet ps k dflt

/-- Python `d[k] = v` on an association-list dict: overwrite the first
occurrence of the key in place, or append a new entry. -/
def dictSet (d : List (Str × ℚ)) (k : Str) (v : ℚ) : List (Str × ℚ) :=
  match d with
  | [] => [(k, v)]
  | p :: ps => if p.1 = k then (k, v) :: ps else p :: dictSet ps k v

/-- Does the dict have an entry for key `k`? -/
def hasKey : List (Str × ℚ) → Str → Bool
  | [], _ => false
  | p :: ps, k => p.1 = k || hasKey ps k

/-- Insert `x` into a descending-sorted list: walk past the elements with a
strictly larger key and place `x` before the first element whose key is at
most `key x`. -/
def insOrd {α : Type} (key : α → ℚ) (x : α) : List α → List α
  | [] => [x]
  | y :: ys => if key x < key y then y :: insOrd key x ys else x :: y :: ys

/-- Stable descending sort by a rational key, the semantics of Python's
`list.sort(key=..., reverse=True)`: descending in the key, and elements
with equal keys keep their original relative order. A stable sort is
uniquely determined by these two properties, so insertion sort computes
the same list as Python's timsort. -/
def sortByDesc {α : Type} (key : α → ℚ) (l : List α) : List α :=
  l.foldr (insOrd key) []

/-- A `BasicSearchEngine.search` result entry: the dict
`{"doc": doc, "base_score": score}`. -/
structure BaseResult where
  doc : Document
  base_score : ℚ
deriving DecidableEq

/-- The lowercased `title + " " + content` text a document is matched
against (`src/search_engine.py` line 64). -/
def docLowerText (doc : Document) : Str :=
  strLower (doc.title ++ [' '] ++ doc.content)

/-- The inner scoring loop of `BasicSearchEngine.search`: one point per
query token (duplicates counted) contained in the document text. -/
def tokenScore (query_tokens : List Str) (text : Str) : ℚ :=
  query_tokens.foldl (fun s qt => if substrIn qt text then s + 1 else s) 0

/-- The document loop of `BasicSearchEngine.search`: score each document
and append the ones with positive score, in document order. -/
def searchLoop (query_tokens : List Str) (documents : List Document) : List BaseResult :=
  documents.foldl
    (fun results doc =>
      let text := docLowerText doc
      let score := tokenScore query_tokens text
      if 0 < score then results ++ [⟨doc, score⟩] else results)
    []

/-- Embedding of `BasicSearchEngine.search` (`src/search_engine.py`
lines 59-76): tokenize, score every document, keep positive scores,
stable-sort descending by `base_score`. -/
def search (documents : List Document) (query : Str) : List BaseResult :=
  sortByDesc (fun r => r.base_score) (searchLoop (tokenize query) documents)

/-- The food trigger test of `build_history_preferences`
(`src/search_engine.py` line 86). -/
def trigFood (q : Str) : Bool :=
  substrIn (str "кафе") q || substrIn (str "ресторан") q || substrIn (str "їжа") q

/-- The news trigger test (`src/search_engine.py` line 88). -/
def trigNews (q : Str) : Bool :=
  substrIn (str "новини") q || substrIn (str "news") q

/-- The education trigger test (`src/search_engine.py` line 90). -/
def trigEducation (q : Str) : Bool :=
  substrIn (str "курс") q || substrIn (str "навчання") q || substrIn (str "python") q

/-- The sport trigger test (`src/search_engine.py` line 92). -/
def trigSport (q : Str) : Bool :=
  substrIn (str "спорт") q || substrIn (str "фітнес") q || substrIn (str "басейн") q

/-- One history query's contribution in `build_history_preferences`
(`src/search_engine.py` lines 85-93): each of the four fixed keyword sets
is tested by substring containment and bumps its category's accumulator by
one; a single query may bump several categories. -/
def histStep (prefs0 : List (Str × ℚ)) (q : Str) : List (Str × ℚ) :=
  let p1 :=
    if trigFood q
    then dictSet prefs0 (str "food") (dictGet prefs0 (str "food") 0 + 1) else prefs0
  let p2 :=
    if trigNews q
    then dictSet p1 (str "news") (dictGet p1 (str "news") 0 + 1) else p1
  let p3 :=
    if trigEducation q
    then dictSet p2 (str "education") (dictGet p2 (str "education") 0 + 1) else p2
  let p4 :=
    if trigSport q
    then dictSet p3 (str "sport") (dictGet p3 (str "sport") 0 + 1) else p3
  p4

/-- Embedding of `ContextSearchEngine.build_history_preferences`
(`src/search_engine.py` lines 83-100): accumulators for the four tracked
categories start at 0, every history query is scanned, and a positive
accumulator `v` becomes the weight `1.0 + v * 0.5` while a zero
accumulator becomes the neutral weight `1.0`. -/
def build_history_preferences (context : UserContext) : List (Str × ℚ) :=
  let init : List (Str × ℚ) :=
    [(str "food", 0), (str "news", 0), (str "education", 0), (str "sport", 0)]
  let prefs := context.query_history.foldl histStep init
  prefs.map (fun p => if 0 < p.2 then (p.1, 1 + p.2 * 0.5) else (p.1, 1))

/-- The merge of explicit preferences into the history-derived weights
(`src/search_engine.py` lines 108-110): for every `(cat, w)` item of
`context.preferences`, in iteration order,
`combined[cat] = combined.get(cat, 1.0) * w`. -/
def combinePrefs (hist : List (Str × ℚ)) (explicitPrefs : List (Str × ℚ)) :
    List (Str × ℚ) :=
  explicitPrefs.foldl (fun combined cw => dictSet combined cw.1 (dictGet combined cw.1 1 * cw.2)) hist

/-- The `context_info` dict attached to every context-search result. -/
structure ContextInfo where
  matched_location : Bool
  time_segment : Str
  doc_time_tag : Str
  category_weight : ℚ
deriving DecidableEq

/-- A `search_with_context` result entry. -/
structure AdaptedResult where
  doc : Document
  base_score : ℚ
  final_score : ℚ
  context_info : ContextInfo
deriving DecidableEq

/-- The per-item body of the adaptation loop of `search_with_context`
(`src/search_engine.py` lines 113-144): geolocation factor, the
`if / elif / else` time factor, and the category weight, applied in that
order to the base score. -/
def adaptItem (context : UserContext) (combined : List (Str × ℚ)) (item : BaseResult) :
    AdaptedResult :=
  let doc := item.doc
  let s1 := item.base_score
  let s2 := if strLower doc.location = strLower context.location then s1 * 1.5 else s1
  let s3 :=
    if doc.time_tag = context.time_segment then s2 * 1.3
    else if doc.time_tag = str "any" then s2 * 1
    else s2 * 0.9
  let cat_weight := dictGet combined doc.category 1
  let s4 := s3 * cat_weight
  { doc := doc
    base_score := item.base_score
    final_score := s4
    context_info :=
      { matched_location := decide (strLower doc.location = strLower context.location)
        time_segment := context.time_segment
        doc_time_tag := doc.time_tag
        category_weight := cat_weight } }

/-- Embedding of `ContextSearchEngine.search_with_context`
(`src/search_engine.py` lines 102-147): run the base search, return empty
on no base results, otherwise merge preferences, adapt every base result
in order, and stable-sort descending by `final_score`. -/
def search_with_context (documents : List Document) (query : Str) (context : UserContext) :
    List AdaptedResult :=
  let base_results := search documents query
  if base_results = [] then []
  else
    let combined := combinePrefs (build_history_preferences context) context.preferences
    let adapted := base_results.map (adaptItem context combined)
    sortByDesc (fun r => r.final_score) adapted

/-- A raw JSON record as seen by `load_documents`: each field may be
absent. `id` is an integer in the data files, the rest are strings. -/
structure RawRecord where
  id : Option Int
  title : Option Str
  content : Option Str
  location : Option Str
  category : Option Str
  time_tag : Option Str
deriving DecidableEq

/-- The per-record body of the `load_documents` loop (`src/search_engine.py`
lines 33-42): required fields are read with `d[...]` in the source's
evaluation order (id, title, content, location, category) and a missing one
raises `KeyError(name)`, modelled as `Except.error name`; `time_tag` is
read with `d.get("time_tag", "any")` and defaults. -/
def loadRecord (r : RawRecord) : Except Str Document :=
  match r.id with
  | none => Except.error (str "id")
  | some i =>
    match r.title with
    | none => Except.error (str "title")
    | some t =>
      match r.content with
      | none => Except.error (str "content")
      | some c =>
        match r.location with
        | none => Except.error (str "location")
        | some l =>
          match r.category with
          | none => Except.error (str "category")
          | some cat =>
            Except.ok { id := i, title := t, content := c, location := l,
                        category := cat, time_tag := r.time_tag.getD (str "any") }

/-- Model of `load_documents` (`src/search_engine.py` lines 28-43) after
the excluded file read and JSON parse: build a `Document` from every
record in order, stopping at the first record that raises. -/
def load_documents : List RawRecord → Except Str (List Document)
  | [] => Except.ok []
  | r :: rs =>
    match loadRecord r with
    | Except.error e => Except.error e
    | Except.ok d =>
      match load_documents rs with
      | Except.error e => Except.error e
      | Except.ok ds => Except.ok (d :: ds)

/-! Lemmas about the stable descending sort. -/

theorem insOrd_perm {α : Type} (key : α → ℚ) (x : α) (l : List α) :
    (insOrd key x l).Perm (x :: l) := by
  induction l with
  | nil => simp [insOrd]
  | cons y ys ih =>
    by_cases h : key x < key y
    · simp only [insOrd, if_pos h]
      exact (ih.cons y).trans (List.Perm.swap x y ys)
    · simp [insOrd, if_neg h]

theorem sortByDesc_perm {α : Type} (key : α → ℚ) (l : List α) :
    (sortByDesc key l).Perm l := by
  induction l with
  | nil => simp [sortByDesc]
  | cons a l ih =>
    have : sortByDesc key (a :: l) = insOrd key a (sortByDesc key l) := rfl
    rw [this]
    exact (insOrd_perm key a (sortByDesc key l)).trans (ih.cons a)

theorem pairwise_insOrd {α : Type} (key : α → ℚ) (x : α) {l : List α}
    (h : l.Pairwise (fun a b => key b ≤ key a)) :
    (insOrd key x l).Pairwise (fun a b => key b ≤ key a) := by
  induction l with
  | nil => simp [insOrd]
  | cons y ys ih =>
    rcases List.pairwise_cons.1 h with ⟨hy, hys⟩
    by_cases hxy : key x < key y
    · simp only [insOrd, if_pos hxy]
      refine List.pairwise_cons.2 ⟨?_, ih hys⟩
      intro a ha
      have ha2 : a = x ∨ a ∈ ys := by
        have := (insOrd_perm key x ys).mem_iff.1 ha
        simpa using this
      rcases ha2 with rfl | ha3
      · exact le_of_lt hxy
      · exact hy a ha3
    · simp only [insOrd, if_neg hxy]
      refine List.pairwise_cons.2 ⟨?_, h⟩
      intro a ha
      rcases List.mem_cons.1 ha with rfl | ha3
      · exact le_of_not_lt hxy
      · exact le_trans (hy a ha3) (le_of_not_lt hxy)

theorem sortByDesc_pairwise {α : Type} (key : α → ℚ) (l : List α) :
    (sortByDesc key l).Pairwise (fun a b => key b ≤ key a) := by
  induction l with
  | nil => simp [sortByDesc]
  | cons a l ih => exact pairwise_insOrd key a ih

theorem filter_insOrd_self {α : Type} (key : α → ℚ) (x : α) (l : List α) (s : ℚ)
    (hx : key x = s) :
    (insOrd key x l).filter (fun a => decide (key a = s))
      = x :: l.filter (fun a => decide (key a = s)) := by
  induction l with
  | nil => simp [insOrd, hx]
  | cons y ys ih =>
    by_cases hxy : key x < key y
    · have hy : ¬ (key y = s) := by
        rw [← hx]
        exact ne_of_gt hxy
      simp only [insOrd, if_pos hxy, List.filter_cons]
      simp [hy, ih]
    · simp only [insOrd]
      rw [if_neg hxy, List.filter_cons, List.filter_cons]
      simp [hx]

theorem filter_insOrd_ne {α : Type} (key : α → ℚ) (x : α) (l : List α) (s : ℚ)
    (hx : ¬ (key x = s)) :
    (insOrd key x l).filter (fun a => decide (key a = s))
      = l.filter (fun a => decide (key a = s)) := by
  induction l with
  | nil => simp [insOrd, hx]
  | cons y ys ih =>
    by_cases hxy : key x < key y
    · simp only [insOrd, if_pos hxy, List.filter_cons]
      rw [ih]
    · simp [insOrd, if_neg hxy, List.filter_cons, hx]

theorem sortByDesc_filter_key {α : Type} (key : α → ℚ) (l : List α) (s : ℚ) :
    (sortByDesc key l).filter (fun a => decide (key a = s))
      = l.filter (fun a => decide (key a = s)) := by
  induction l with
  | nil => simp [sortByDesc]
  | cons a l ih =>
    have hstep : sortByDesc key (a :: l) = insOrd key a (sortByDesc key l) := rfl
    rw [hstep]
    by_cases ha : key a = s
    · rw [filter_insOrd_self key a _ s ha, ih, List.filter_cons]
      simp [ha]
    · rw [filter_insOrd_ne key a _ s ha, ih, List.filter_cons]
      simp [ha]

/-! Lemmas about the base scorer. -/

theorem foldl_score_shift (p : Str → Bool) (l : List Str) (c : ℚ) :
    l.foldl (fun s qt => if p qt then s + 1 else s) c = c + (l.countP p : ℚ) := by
  induction l generalizing c with
  | nil => simp
  | cons a l ih =>
    by_cases h : p a = true
    · rw [List.foldl_cons, if_pos h, ih, List.countP_cons, if_pos h]
      push_cast
      ring
    · rw [List.foldl_cons, if_neg h, ih, List.countP_cons, if_neg h]
      ring_nf

theorem tokenScore_eq_countP (qts : List Str) (text : Str) :
    tokenScore qts text = (qts.countP (fun qt => substrIn qt text) : ℚ) := by
  simpa [tokenScore] using foldl_score_shift (fun qt => substrIn qt text) qts 0

theorem searchLoop_foldl_eq (qts : List Str) (docs : List Document) (acc : List BaseResult) :
    docs.foldl
      (fun results doc =>
        let text := docLowerText doc
        let score := tokenScore qts text
        if 0 < score then results ++ [⟨doc, score⟩] else results) acc
    = acc ++ docs.filterMap (fun doc =>
        if 0 < tokenScore qts (docLowerText doc)
        then some ⟨doc, tokenScore qts (docLowerText doc)⟩ else none) := by
  induction docs generalizing acc with
  | nil => simp
  | cons d ds ih =>
    rw [List.foldl_cons, List.filterMap_cons]
    by_cases h : 0 < tokenScore qts (docLowerText d)
    · simp [h, ih]
    · simp [h, ih]

theorem searchLoop_eq (qts : List Str) (docs : List Document) :
    searchLoop qts docs = docs.filterMap (fun doc =>
      if 0 < tokenScore qts (docLowerText doc)
      then some ⟨doc, tokenScore qts (docLowerText doc)⟩ else none) := by
  simpa only [searchLoop, List.nil_append] using searchLoop_foldl_eq qts docs []

theorem mem_search_iff (docs : List Document) (q : Str) (r : BaseResult) :
    r ∈ search docs q ↔
      ∃ doc ∈ docs, 0 < tokenScore (tokenize q) (docLowerText doc)
        ∧ r = ⟨doc, tokenScore (tokenize q) (docLowerText doc)⟩ := by
  unfold search
  rw [(sortByDesc_perm _ _).mem_iff, searchLoop_eq, List.mem_filterMap]
  constructor
  · rintro ⟨d, hd, hf⟩
    by_cases h : 0 < tokenScore (tokenize q) (docLowerText d)
    · rw [if_pos h] at hf
      exact ⟨d, hd, h, (Option.some.inj hf).symm⟩
    · rw [if_neg h] at hf
      cases hf
  · rintro ⟨d, hd, h, rfl⟩
    exact ⟨d, hd, by rw [if_pos h]⟩

theorem searchLoop_doc_sublist (qts : List Str) (docs : List Document) :
    ((searchLoop qts docs).map (fun r => r.doc)).Sublist docs := by
  rw [searchLoop_eq]
  induction docs with
  | nil => simp
  | cons d ds ih =>
    by_cases h : 0 < tokenScore qts (docLowerText d)
    · simp only [List.filterMap_cons, if_pos h, List.map_cons]
      exact List.Sublist.cons₂ d ih
    · simp only [List.filterMap_cons, if_neg h]
      exact List.Sublist.cons d ih

theorem search_empty_of_no_tokens (docs : List Document) (q : Str)
    (h : tokenize q = []) : search docs q = [] := by
  unfold search
  rw [h]
  have hsl : searchLoop [] docs = [] := by
    rw [searchLoop_eq]
    refine List.filterMap_eq_nil_iff.2 ?_
    intro d _
    simp [tokenScore]
  rw [hsl]
  rfl

theorem search_with_context_eq (documents : List Document) (query : Str)
    (context : UserContext) :
    search_with_context documents query context
      = sortByDesc (fun r => r.final_score)
          ((search documents query).map
            (adaptItem context
              (combinePrefs (build_history_preferences context) context.preferences))) := by
  unfold search_with_context
  by_cases h : search documents query = []
  · rw [if_pos h, h]
    rfl
  · rw [if_neg h]

/-! Lemmas about the association-list dict operations and the
history-preference accumulation. -/

theorem dictGet_dictSet_self (d : List (Str × ℚ)) (k : Str) (v dflt : ℚ) :
    dictGet (dictSet d k v) k dflt = v := by
  induction d with
  | nil => simp [dictSet, dictGet]
  | cons p ps ih =>
    by_cases h : p.1 = k
    · simp [dictSet, dictGet, h]
    · simp [dictSet, dictGet, h, ih]

theorem dictGet_dictSet_other (d : List (Str × ℚ)) (k k' : Str) (v dflt : ℚ)
    (h : k' ≠ k) :
    dictGet (dictSet d k v) k' dflt = dictGet d k' dflt := by
  have hkk : ¬ (k = k') := fun hh => h hh.symm
  induction d with
  | nil => simp [dictSet, dictGet, hkk]
  | cons p ps ih =>
    by_cases hp : p.1 = k
    · have hp' : ¬ (p.1 = k') := by
        rw [hp]
        exact hkk
      simp [dictSet, dictGet, hp, hp', hkk]
    · by_cases hk : p.1 = k'
      · simp only [dictSet, if_neg hp, dictGet, if_pos hk]
      · simp only [dictSet, if_neg hp, dictGet, if_neg hk, ih]

theorem hasKey_iff_mem_keys (d : List (Str × ℚ)) (k : Str) :
    hasKey d k = true ↔ k ∈ d.map Prod.fst := by
  induction d with
  | nil => simp [hasKey]
  | cons p ps ih =>
    simp only [hasKey, List.map_cons, List.mem_cons, Bool.or_eq_true,
      decide_eq_true_eq, ih]
    constructor
    · rintro (h | h)
      · exact Or.inl h.symm
      · exact Or.inr h
    · rintro (h | h)
      · exact Or.inl h.symm
      · exact Or.inr h

theorem hasKey_dictSet_iff (d : List (Str × ℚ)) (k' : Str) (v : ℚ) (k : Str) :
    hasKey (dictSet d k' v) k = true ↔ (k = k' ∨ hasKey d k = true) := by
  induction d with
  | nil =>
    simp only [dictSet, hasKey, Bool.or_eq_true, decide_eq_true_eq]
    constructor
    · rintro (h | h)
      · exact Or.inl h.symm
      · exact absurd h (by simp)
    · rintro (h | h)
      · exact Or.inl h.symm
      · exact absurd h (by simp)
  | cons p ps ih =>
    by_cases hp : p.1 = k'
    · simp only [dictSet, if_pos hp, hasKey, Bool.or_eq_true, decide_eq_true_eq]
      constructor
      · rintro (h | h)
        · exact Or.inl h.symm
        · exact Or.inr (Or.inr h)
      · rintro (h | h | h)
        · exact Or.inl h.symm
        · exact Or.inl (hp.symm.trans h)
        · exact Or.inr h
    · simp only [dictSet, if_neg hp, hasKey, Bool.or_eq_true, decide_eq_true_eq, ih]
      tauto

theorem hasKey_dictSet_of (d : List (Str × ℚ)) (k' : Str) (v : ℚ) (k : Str)
    (h : hasKey d k = true) :
    hasKey (dictSet d k' v) k = true :=
  (hasKey_dictSet_iff d k' v k).2 (Or.inr h)

theorem dictGet_of_not_hasKey (d : List (Str × ℚ)) (k : Str) (dflt : ℚ)
    (h : ¬ hasKey d k = true) :
    dictGet d k dflt = dflt := by
  induction d with
  | nil => simp [dictGet]
  | cons p ps ih =>
    simp only [hasKey, Bool.or_eq_true, decide_eq_true_eq, not_or] at h
    simp only [dictGet, if_neg h.1]
    exact ih (by simpa using h.2)

theorem dictGet_bumpIf_other (b : Bool) (d : List (Str × ℚ)) (k' : Str) (v : ℚ)
    (k : Str) (dflt : ℚ) (h : k ≠ k') :
    dictGet (if b then dictSet d k' v else d) k dflt = dictGet d k dflt := by
  cases b
  · rfl
  · simpa using dictGet_dictSet_other d k' k v dflt h

theorem dictGet_bumpIf_target (b : Bool) (d : List (Str × ℚ)) (k : Str) :
    dictGet (if b then dictSet d k (dictGet d k 0 + 1) else d) k 0
      = dictGet d k 0 + (if b then 1 else 0) := by
  cases b
  · simp
  · simpa using dictGet_dictSet_self d k (dictGet d k 0 + 1) 0

theorem hasKey_bumpIf_of (b : Bool) (d : List (Str × ℚ)) (k' : Str) (v : ℚ)
    (k : Str) (h : hasKey d k = true) :
    hasKey (if b then dictSet d k' v else d) k = true := by
  cases b
  · exact h
  · simpa using hasKey_dictSet_of d k' v k h

theorem hasKey_bumpIf_inv (b : Bool) (d : List (Str × ℚ)) (k' : Str) (v : ℚ)
    (k : Str) (h : hasKey (if b then dictSet d k' v else d) k = true) :
    k = k' ∨ hasKey d k = true := by
  cases b
  · exact Or.inr h
  · exact (hasKey_dictSet_iff d k' v k).1 (by simpa using h)

theorem dictGet_histStep_food (p : List (Str × ℚ)) (q : Str) :
    dictGet (histStep p q) (str "food") 0
      = dictGet p (str "food") 0 + (if trigFood q then 1 else 0) := by
  simp only [histStep]
  rw [dictGet_bumpIf_other _ _ _ _ _ _ (by decide),
      dictGet_bumpIf_other _ _ _ _ _ _ (by decide),
      dictGet_bumpIf_other _ _ _ _ _ _ (by decide),
      dictGet_bumpIf_target]

theorem dictGet_histStep_news (p : List (Str × ℚ)) (q : Str) :
    dictGet (histStep p q) (str "news") 0
      = dictGet p (str "news") 0 + (if trigNews q then 1 else 0) := by
  simp only [histStep]
  rw [dictGet_bumpIf_other _ _ _ _ _ _ (by decide),
      dictGet_bumpIf_other _ _ _ _ _ _ (by decide),
      dictGet_bumpIf_target,
      dictGet_bumpIf_other _ _ _ _ _ _ (by decide)]

theorem dictGet_histStep_education (p : List (Str × ℚ)) (q : Str) :
    dictGet (histStep p q) (str "education") 0
      = dictGet p (str "education") 0 + (if trigEducation q then 1 else 0) := by
  simp only [histStep]
  rw [dictGet_bumpIf_other _ _ _ _ _ _ (by decide),
      dictGet_bumpIf_target,
      dictGet_bumpIf_other _ _ _ _ _ _ (by decide),
      dictGet_bumpIf_other _ _ _ _ _ _ (by decide)]

theorem dictGet_histStep_sport (p : List (Str × ℚ)) (q : Str) :
    dictGet (histStep p q) (str "sport") 0
      = dictGet p (str "sport") 0 + (if trigSport q then 1 else 0) := by
  simp only [histStep]
  rw [dictGet_bumpIf_target,
      dictGet_bumpIf_other _ _ _ _ _ _ (by decide),
      dictGet_bumpIf_other _ _ _ _ _ _ (by decide),
      dictGet_bumpIf_other _ _ _ _ _ _ (by decide)]

theorem dictGet_foldl_histStep (k : Str) (trig : Str → Bool)
    (hstep : ∀ p q, dictGet (histStep p q) k 0 = dictGet p k 0 + (if trig q then 1 else 0))
    (hist : List Str) :
    ∀ p : List (Str × ℚ),
      dictGet (hist.foldl histStep p) k 0 = dictGet p k 0 + (hist.countP trig : ℚ) := by
  induction hist with
  | nil => simp
  | cons q hist ih =>
    intro p
    rw [List.foldl_cons, ih, hstep, List.countP_cons]
    by_cases h : trig q = true
    · rw [if_pos h, if_pos h]
      push_cast
      ring
    · rw [if_neg h, if_neg h]
      push_cast
      ring

theorem hasKey_histStep_of (p : List (Str × ℚ)) (q : Str) (k : Str)
    (h : hasKey p k = true) :
    hasKey (histStep p q) k = true := by
  simp only [histStep]
  exact hasKey_bumpIf_of _ _ _ _ _ (hasKey_bumpIf_of _ _ _ _ _
    (hasKey_bumpIf_of _ _ _ _ _ (hasKey_bumpIf_of _ _ _ _ _ h)))

theorem hasKey_foldl_histStep (hist : List Str) :
    ∀ (p : List (Str × ℚ)) (k : Str), hasKey p k = true →
      hasKey (hist.foldl histStep p) k = true := by
  induction hist with
  | nil => exact fun p k h => h
  | cons q hist ih =>
    intro p k h
    rw [List.foldl_cons]
    exact ih _ _ (hasKey_histStep_of p q k h)

theorem hasKey_histStep_inv (p : List (Str × ℚ)) (q : Str) (k : Str)
    (h : hasKey (histStep p q) k = true) :
    hasKey p k = true
      ∨ k ∈ [str "food", str "news", str "education", str "sport"] := by
  simp only [histStep] at h
  rcases hasKey_bumpIf_inv _ _ _ _ _ h with h4 | h'
  · right
    simp [h4]
  rcases hasKey_bumpIf_inv _ _ _ _ _ h' with h3 | h''
  · right
    simp [h3]
  rcases hasKey_bumpIf_inv _ _ _ _ _ h'' with h2 | h3
  · right
    simp [h2]
  rcases hasKey_bumpIf_inv _ _ _ _ _ h3 with h1 | h0
  · right
    simp [h1]
  · exact Or.inl h0

theorem hasKey_foldl_histStep_inv (hist : List Str) :
    ∀ (p : List (Str × ℚ)) (k : Str),
      hasKey (hist.foldl histStep p) k = true →
      hasKey p k = true
        ∨ k ∈ [str "food", str "news", str "education", str "sport"] := by
  induction hist with
  | nil => exact fun p k h => Or.inl h
  | cons q hist ih =>
    intro p k h
    rw [List.foldl_cons] at h
    rcases ih _ _ h with h1 | h2
    · exact hasKey_histStep_inv p q k h1
    · exact Or.inr h2

/-- The weight a category accumulator `n` turns into: `1.0 + n*0.5` when the
accumulator is positive, else the neutral `1.0`. -/
def histWeight (n : ℕ) : ℚ := if 0 < n then 1 + (n : ℚ) * 0.5 else 1

theorem dictGet_map_weight (l : List (Str × ℚ)) (k : Str) (dflt : ℚ)
    (h : hasKey l k = true) :
    dictGet (l.map (fun p => if 0 < p.2 then (p.1, 1 + p.2 * 0.5) else (p.1, 1))) k dflt
      = (if 0 < dictGet l k 0 then 1 + dictGet l k 0 * 0.5 else 1) := by
  induction l with
  | nil => simp [hasKey] at h
  | cons p ps ih =>
    by_cases hp : p.1 = k
    · by_cases h2 : 0 < p.2
      · simp [dictGet, hp, h2]
      · simp [dictGet, hp, h2]
    · have h' : hasKey ps k = true := by
        simpa [hasKey, List.any_cons, hp] using h
      by_cases h2 : 0 < p.2
      · simp [dictGet, hp, h2, ih h']
      · simp [dictGet, hp, h2, ih h']

theorem hasKey_map_weight (l : List (Str × ℚ)) (k : Str) :
    hasKey (l.map (fun p => if 0 < p.2 then (p.1, 1 + p.2 * 0.5) else (p.1, 1))) k
      = hasKey l k := by
  induction l with
  | nil => rfl
  | cons p ps ih =>
    by_cases h2 : 0 < p.2
    · simp [hasKey, h2, ih]
    · simp [hasKey, h2, ih]

theorem build_get_cat (ctx : UserContext) (k : Str) (trig : Str → Bool)
    (hstep : ∀ p q, dictGet (histStep p q) k 0 = dictGet p k 0 + (if trig q then 1 else 0))
    (hkey : hasKey
      [(str "food", (0:ℚ)), (str "news", 0), (str "education", 0), (str "sport", 0)] k = true)
    (h0 : dictGet
      [(str "food", (0:ℚ)), (str "news", 0), (str "education", 0), (str "sport", 0)] k 0 = 0) :
    dictGet (build_history_preferences ctx) k 1
      = histWeight (ctx.query_history.countP trig) := by
  simp only [build_history_preferences]
  rw [dictGet_map_weight _ _ _ (hasKey_foldl_histStep _ _ _ hkey),
      dictGet_foldl_histStep k trig hstep, h0, zero_add]
  unfold histWeight
  by_cases h : 0 < ctx.query_history.countP trig
  · rw [if_pos h, if_pos (by exact_mod_cast h)]
  · rw [if_neg h, if_neg (by exact_mod_cast h)]

theorem build_get_food (ctx : UserContext) :
    dictGet (build_history_preferences ctx) (str "food") 1
      = histWeight (ctx.query_history.countP trigFood) :=
  build_get_cat ctx _ _ dictGet_histStep_food (by decide) (by decide)

theorem build_get_news (ctx : UserContext) :
    dictGet (build_history_preferences ctx) (str "news") 1
      = histWeight (ctx.query_history.countP trigNews) :=
  build_get_cat ctx _ _ dictGet_histStep_news (by decide) (by decide)

theorem build_get_education (ctx : UserContext) :
    dictGet (build_history_preferences ctx) (str "education") 1
      = histWeight (ctx.query_history.countP trigEducation) :=
  build_get_cat ctx _ _ dictGet_histStep_education (by decide) (by decide)

theorem build_get_sport (ctx : UserContext) :
    dictGet (build_history_preferences ctx) (str "sport") 1
      = histWeight (ctx.query_history.countP trigSport) :=
  build_get_cat ctx _ _ dictGet_histStep_sport (by decide) (by decide)

theorem build_get_of_not_tracked (ctx : UserContext) (k : Str)
    (h : k ∉ [str "food", str "news", str "education", str "sport"]) :
    dictGet (build_history_preferences ctx) k 1 = 1 := by
  simp only [build_history_preferences]
  apply dictGet_of_not_hasKey
  rw [hasKey_map_weight]
  intro hk
  rcases hasKey_foldl_histStep_inv _ _ _ hk with h1 | h2
  · exact h (by simpa using (hasKey_iff_mem_keys _ _).1 h1)
  · exact h h2

theorem combinePrefs_cons (hist : List (Str × ℚ)) (cw : Str × ℚ)
    (rest : List (Str × ℚ)) :
    combinePrefs hist (cw :: rest)
      = combinePrefs (dictSet hist cw.1 (dictGet hist cw.1 1 * cw.2)) rest := rfl

theorem dictGet_combinePrefs_of_not_key (ps : List (Str × ℚ)) :
    ∀ (hist : List (Str × ℚ)) (k : Str) (dflt : ℚ), ¬ hasKey ps k = true →
      dictGet (combinePrefs hist ps) k dflt = dictGet hist k dflt := by
  induction ps with
  | nil => intro hist k dflt _; rfl
  | cons cw rest ih =>
    intro hist k dflt h
    simp only [hasKey, Bool.or_eq_true, decide_eq_true_eq, not_or] at h
    rw [combinePrefs_cons, ih _ _ _ (by simpa using h.2),
        dictGet_dictSet_other _ _ _ _ _ (fun hh => h.1 hh.symm)]

theorem dictGet_combinePrefs_of_mem (ps : List (Str × ℚ)) :
    ∀ (hist : List (Str × ℚ)) (k : Str) (w : ℚ),
      (ps.map Prod.fst).Nodup → (k, w) ∈ ps →
      dictGet (combinePrefs hist ps) k 1 = dictGet hist k 1 * w := by
  induction ps with
  | nil =>
    intro hist k w _ hmem
    cases hmem
  | cons cw rest ih =>
    intro hist k w hnd hmem
    rw [List.map_cons, List.nodup_cons] at hnd
    rcases List.mem_cons.1 hmem with heq | hmem2
    · cases heq.symm
      rw [combinePrefs_cons]
      rw [dictGet_combinePrefs_of_not_key rest _ _ _ ?notrest]
      · exact dictGet_dictSet_self _ _ _ _
      case notrest =>
        intro hk
        exact hnd.1 ((hasKey_iff_mem_keys _ _).1 hk)
    · have hkmem : k ∈ rest.map Prod.fst := by
        simpa using List.mem_map_of_mem Prod.fst hmem2
      have hkne : ¬ (cw.1 = k) := by
        intro hh
        apply hnd.1
        rw [hh]
        exact hkmem
      rw [combinePrefs_cons, ih _ _ _ hnd.2 hmem2,
          dictGet_dictSet_other _ _ _ _ _ (fun hh => hkne hh.symm)]

/-! Decomposition of the adapted score into its three factors. -/

/-- The time multiplier of `search_with_context`, read off the
`if / elif / else` chain of `src/search_engine.py` lines 122-128: the
equality test comes first, so it wins even when both sides are `"any"`. -/
def timeFactor (tag seg : Str) : ℚ :=
  if tag = seg then 1.3 else if tag = str "any" then 1 else 0.9

theorem adaptItem_final_score (context : UserContext) (combined : List (Str × ℚ))
    (item : BaseResult) :
    (adaptItem context combined item).final_score
      = item.base_score
          * (if strLower item.doc.location = strLower context.location then 1.5 else 1)
          * timeFactor item.doc.time_tag context.time_segment
          * dictGet combined item.doc.category 1 := by
  simp only [adaptItem, timeFactor]
  by_cases h1 : strLower item.doc.location = strLower context.location <;>
    by_cases h2 : item.doc.time_tag = context.time_segment <;>
      by_cases h3 : item.doc.time_tag = str "any" <;>
        simp [h1, h2, h3]

theorem mem_search_with_context (documents : List Document) (query : Str)
    (context : UserContext) (r : AdaptedResult) :
    r ∈ search_with_context documents query context ↔
      ∃ item ∈ search documents query,
        r = adaptItem context
          (combinePrefs (build_history_preferences context) context.preferences) item := by
  rw [search_with_context_eq, (sortByDesc_perm _ _).mem_iff]
  simp only [List.mem_map]
  constructor
  · rintro ⟨a, ha, rfl⟩
    exact ⟨a, ha, rfl⟩
  · rintro ⟨a, ha, rfl⟩
    exact ⟨a, ha, rfl⟩

theorem swc_result_decompose (documents : List Document) (query : Str)
    (context : UserContext) :
    ∀ r ∈ search_with_context documents query context,
      r.final_score
        = r.base_score
          * (if strLower r.doc.location = strLower context.location then 1.5 else 1)
          * timeFactor r.doc.time_tag context.time_segment
          * dictGet (combinePrefs (build_history_preferences context) context.preferences)
              r.doc.category 1
      ∧ r.context_info.time_segment = context.time_segment
      ∧ r.context_info.doc_time_tag = r.doc.time_tag
      ∧ r.context_info.category_weight
          = dictGet (combinePrefs (build_history_preferences context) context.preferences)
              r.doc.category 1
      ∧ r.context_info.matched_location
          = decide (strLower r.doc.location = strLower context.location) := by
  intro r hr
  rcases (mem_search_with_context documents query context r).1 hr with ⟨item, _, rfl⟩
  exact ⟨adaptItem_final_score context _ item, rfl, rfl, rfl, rfl⟩

/-! Lemmas about the tokenizer. -/

theorem foldl_replaceChar : ∀ seps : List Char, ' ' ∉ seps → ∀ t : Str,
    seps.foldl (fun acc s => replaceChar s acc) t
      = t.map (fun c => if c ∈ seps then ' ' else c) := by
  intro seps
  induction seps with
  | nil =>
    intro _ t
    simp
  | cons s ss ih =>
    intro hsp t
    have hs : (' ' : Char) ≠ s := fun h => hsp (h ▸ List.mem_cons_self s ss)
    have hsp2 : ' ' ∉ ss := fun h => hsp (List.mem_cons_of_mem s h)
    rw [List.foldl_cons, ih hsp2, replaceChar, List.map_map]
    apply List.map_congr_left
    intro c _
    by_cases hc : c = s
    · subst hc
      simp [hsp2]
    · simp [hc]

theorem sepReplace_eq (t : Str) :
    separators.foldl (fun acc s => replaceChar s acc) t
      = t.map (fun c => if c ∈ separators then ' ' else c) :=
  foldl_replaceChar separators (by decide) t

theorem tokenize_eq_map (s : Str) :
    tokenize s
      = (splitSp ((strLower s).map (fun c => if c ∈ separators then ' ' else c))).filter
          (fun t => ¬t.isEmpty) := by
  simp only [tokenize, sepReplace_eq]

theorem splitSp_ne_nil : ∀ l : Str, splitSp l ≠ [] := by
  intro l
  cases l with
  | nil => simp [splitSp]
  | cons c cs =>
    by_cases h : c = ' '
    · simp [splitSp, h]
    · simp only [splitSp, if_neg h]
      cases hs : splitSp cs
      · simp
      · simp

theorem splitSp_chars : ∀ (l : Str) (t : Str), t ∈ splitSp l → ∀ c ∈ t, c ∈ l ∧ c ≠ ' ' := by
  intro l
  induction l with
  | nil =>
    intro t ht c hc
    simp [splitSp] at ht
    subst ht
    cases hc
  | cons a as ih =>
    intro t ht c hc
    by_cases ha : a = ' '
    · simp only [splitSp, if_pos ha] at ht
      rcases List.mem_cons.1 ht with rfl | ht2
      · cases hc
      · rcases ih t ht2 c hc with ⟨h1, h2⟩
        exact ⟨List.mem_cons_of_mem a h1, h2⟩
    · simp only [splitSp, if_neg ha] at ht
      cases hs : splitSp as with
      | nil => exact absurd hs (splitSp_ne_nil as)
      | cons t0 ts =>
        rw [hs] at ht
        simp only [] at ht
        rcases List.mem_cons.1 ht with rfl | ht2
        · rcases List.mem_cons.1 hc with rfl | hc2
          · exact ⟨List.mem_cons_self c as, ha⟩
          · have ht0 : t0 ∈ splitSp as := by
              rw [hs]
              exact List.mem_cons_self t0 ts
            rcases ih t0 ht0 c hc2 with ⟨h1, h2⟩
            exact ⟨List.mem_cons_of_mem a h1, h2⟩
        · have htt : t ∈ splitSp as := by
            rw [hs]
            exact List.mem_cons_of_mem t0 ht2
          rcases ih t htt c hc with ⟨h1, h2⟩
          exact ⟨List.mem_cons_of_mem a h1, h2⟩

/-- Join a list of tokens with single spaces (the construction named by the
idempotence property of the tokenizer). -/
def joinSp : List Str → Str
  | [] => []
  | [t] => t
  | t :: t2 :: ts => t ++ ' ' :: joinSp (t2 :: ts)

theorem splitSp_append_nospace : ∀ t rest : Str, (∀ c ∈ t, c ≠ ' ') →
    splitSp (t ++ rest) = List.modifyHead (fun u => t ++ u) (splitSp rest) := by
  intro t
  induction t with
  | nil =>
    intro rest _
    cases hs : splitSp rest with
    | nil => exact absurd hs (splitSp_ne_nil rest)
    | cons u us => simp [hs]
  | cons a as ih =>
    intro rest hna
    have ha : a ≠ ' ' := hna a (List.mem_cons_self a as)
    have has : ∀ c ∈ as, c ≠ ' ' := fun c hc => hna c (List.mem_cons_of_mem a hc)
    simp only [List.cons_append, splitSp, if_neg ha, List.append_eq]
    rw [ih rest has]
    cases hs : splitSp rest with
    | nil => exact absurd hs (splitSp_ne_nil rest)
    | cons u us => simp

theorem splitSp_join_filter : ∀ ts : List Str,
    (∀ t ∈ ts, t ≠ [] ∧ ∀ c ∈ t, c ≠ ' ') →
    (splitSp (joinSp ts)).filter (fun t => ¬t.isEmpty) = ts := by
  intro ts
  induction ts with
  | nil =>
    intro _
    rfl
  | cons t ts2 ih =>
    intro h
    have ht := h t (List.mem_cons_self t ts2)
    cases ts2 with
    | nil =>
      have hone : splitSp t = [t] := by
        have h2 := splitSp_append_nospace t [] ht.2
        rw [List.append_nil] at h2
        simpa [splitSp] using h2
      simp [joinSp, hone, List.filter_cons, ht.1]
    | cons t2 ts3 =>
      have hrest : ∀ u ∈ t2 :: ts3, u ≠ [] ∧ ∀ c ∈ u, c ≠ ' ' :=
        fun u hu => h u (List.mem_cons_of_mem t hu)
      have hjoin : joinSp (t :: t2 :: ts3) = t ++ ' ' :: joinSp (t2 :: ts3) := rfl
      rw [hjoin, splitSp_append_nospace t _ ht.2]
      have hsp : splitSp (' ' :: joinSp (t2 :: ts3))
          = [] :: splitSp (joinSp (t2 :: ts3)) := by
        simp [splitSp]
      rw [hsp, List.modifyHead_cons, List.append_nil, List.filter_cons]
      have hkeep : (¬t.isEmpty) = True := by
        simp [List.isEmpty_iff, ht.1]
      simp only [hkeep]
      rw [ih hrest]
      simp

theorem mem_joinSp : ∀ (ts : List Str) (c : Char), c ∈ joinSp ts →
    c = ' ' ∨ ∃ t ∈ ts, c ∈ t := by
  intro ts
  induction ts with
  | nil =>
    intro c hc
    cases hc
  | cons t ts2 ih =>
    cases ts2 with
    | nil =>
      intro c hc
      exact Or.inr ⟨t, List.mem_cons_self t [], by simpa [joinSp] using hc⟩
    | cons t2 ts3 =>
      intro c hc
      have hjoin : joinSp (t :: t2 :: ts3) = t ++ ' ' :: joinSp (t2 :: ts3) := rfl
      rw [hjoin] at hc
      rcases List.mem_append.1 hc with h | h
      · exact Or.inr ⟨t, List.mem_cons_self _ _, h⟩
      · rcases List.mem_cons.1 h with rfl | h2
        · exact Or.inl rfl
        · rcases ih c h2 with h3 | ⟨u, hu, hcu⟩
          · exact Or.inl h3
          · exact Or.inr ⟨u, List.mem_cons_of_mem t hu, hcu⟩

theorem toNat_ofNat_small (n : ℕ) (h : n < 55296) : (Char.ofNat n).toNat = n := by
  have hv : n.isValidChar := Or.inl h
  rw [Char.ofNat, dif_pos hv]
  rfl

theorem pyLowerChar_idem (c : Char) : pyLowerChar (pyLowerChar c) = pyLowerChar c := by
  by_cases h1 : 65 ≤ c.toNat ∧ c.toNat ≤ 90
  · have e1 : pyLowerChar c = Char.ofNat (c.toNat + 32) := by
      simp only [pyLowerChar]
      rw [if_pos h1]
    rw [e1]
    simp only [pyLowerChar, toNat_ofNat_small (c.toNat + 32) (by omega)]
    rw [if_neg (by omega), if_neg (by omega), if_neg (by omega), if_neg (by omega)]
  · by_cases h2 : 1040 ≤ c.toNat ∧ c.toNat ≤ 1071
    · have e1 : pyLowerChar c = Char.ofNat (c.toNat + 32) := by
        simp only [pyLowerChar]
        rw [if_neg h1, if_pos h2]
      rw [e1]
      simp only [pyLowerChar, toNat_ofNat_small (c.toNat + 32) (by omega)]
      rw [if_neg (by omega), if_neg (by omega), if_neg (by omega), if_neg (by omega)]
    · by_cases h3 : 1024 ≤ c.toNat ∧ c.toNat ≤ 1039
      · have e1 : pyLowerChar c = Char.ofNat (c.toNat + 80) := by
          simp only [pyLowerChar]
          rw [if_neg h1, if_neg h2, if_pos h3]
        rw [e1]
        simp only [pyLowerChar, toNat_ofNat_small (c.toNat + 80) (by omega)]
        rw [if_neg (by omega), if_neg (by omega), if_neg (by omega), if_neg (by omega)]
      · by_cases h4 : c.toNat = 1168
        · have e1 : pyLowerChar c = Char.ofNat 1169 := by
            simp only [pyLowerChar]
            rw [if_neg h1, if_neg h2, if_neg h3, if_pos h4]
          rw [e1]
          simp only [pyLowerChar, toNat_ofNat_small 1169 (by omega)]
          rw [if_neg (by omega), if_neg (by omega), if_neg (by omega), if_neg (by omega)]
        · have e1 : pyLowerChar c = c := by
            simp only [pyLowerChar]
            rw [if_neg h1, if_neg h2, if_neg h3, if_neg h4]
          rw [e1, e1]

theorem mem_token_chars (s : Str) (t : Str) (ht : t ∈ tokenize s) :
    ∀ c ∈ t, c ≠ ' ' ∧ c ∉ separators ∧ pyLowerChar c = c := by
  intro c hc
  rw [tokenize_eq_map] at ht
  have ht2 : t ∈ splitSp ((strLower s).map (fun c => if c ∈ separators then ' ' else c)) :=
    List.mem_of_mem_filter ht
  rcases splitSp_chars _ t ht2 c hc with ⟨h1, h2⟩
  rcases List.mem_map.1 h1 with ⟨b, hb, hbc⟩
  rcases List.mem_map.1 hb with ⟨a, _, hab⟩
  by_cases hsep : b ∈ separators
  · rw [if_pos hsep] at hbc
    exact absurd hbc.symm h2
  · rw [if_neg hsep] at hbc
    subst hbc
    refine ⟨h2, hsep, ?_⟩
    rw [← hab]
    exact pyLowerChar_idem a

/-! Lemmas about the document loader model. -/

/-- Are all five required fields of a raw record present? -/
def requiredComplete (r : RawRecord) : Bool :=
  r.id.isSome && r.title.isSome && r.content.isSome && r.location.isSome
    && r.category.isSome

/-- The key of the first missing required field, in the access order of the
source (id, title, content, location, category). -/
def firstMissing (r : RawRecord) : Str :=
  if r.id.isNone then str "id"
  else if r.title.isNone then str "title"
  else if r.content.isNone then str "content"
  else if r.location.isNone then str "location"
  else str "category"

theorem loadRecord_complete (r : RawRecord) (h : requiredComplete r = true) :
    loadRecord r = Except.ok
      { id := r.id.getD 0, title := r.title.getD [], content := r.content.getD [],
        location := r.location.getD [], category := r.category.getD [],
        time_tag := r.time_tag.getD (str "any") } := by
  simp only [requiredComplete, Bool.and_eq_true, Option.isSome_iff_exists] at h
  obtain ⟨⟨⟨⟨⟨i, hi⟩, t, htl⟩, c, hc⟩, l, hl⟩, cat, hcat⟩ := h
  simp [loadRecord, hi, htl, hc, hl, hcat]

theorem loadRecord_incomplete (r : RawRecord) (h : ¬ requiredComplete r = true) :
    loadRecord r = Except.error (firstMissing r) := by
  cases hi : r.id with
  | none => simp [loadRecord, firstMissing, hi]
  | some i =>
    cases htl : r.title with
    | none => simp [loadRecord, firstMissing, hi, htl]
    | some t =>
      cases hc : r.content with
      | none => simp [loadRecord, firstMissing, hi, htl, hc]
      | some c =>
        cases hl : r.location with
        | none => simp [loadRecord, firstMissing, hi, htl, hc, hl]
        | some l =>
          cases hcat : r.category with
          | none => simp [loadRecord, firstMissing, hi, htl, hc, hl, hcat]
          | some cat =>
            exact absurd (by simp [requiredComplete, hi, htl, hc, hl, hcat]) h

theorem load_documents_fail_fast : ∀ (pre : List RawRecord) (bad : RawRecord)
    (post : List RawRecord),
    (∀ r ∈ pre, requiredComplete r = true) → ¬ requiredComplete bad = true →
    load_documents (pre ++ bad :: post) = Except.error (firstMissing bad) := by
  intro pre
  induction pre with
  | nil =>
    intro bad post _ hbad
    simp [load_documents, loadRecord_incomplete bad hbad]
  | cons r pre ih =>
    intro bad post hpre hbad
    have hr := hpre r (List.mem_cons_self r pre)
    rw [List.cons_append]
    simp [load_documents, loadRecord_complete r hr,
      ih bad post (fun x hx => hpre x (List.mem_cons_of_mem r hx)) hbad]

/-- State-passing form of `search_with_context` for the frame property: the
call consumes the engine's document list and the caller's context, and
returns, besides the result list, the document list and the context as the
call leaves them. Every operation the source applies to these two inputs
is a read (`self.documents` iteration, `context.query_history` iteration,
`context.preferences.items()`, `context.location`, `context.time_segment`);
the only mutations in the source (`results.append`,
`adapted_results.append`, the two `list.sort` calls and the writes into
`prefs` and `combined_prefs`) target objects freshly allocated during the
call (`results`, `adapted_results`, the dict built inside
`build_history_preferences` and the `.copy()` of it), so the input store
is returned unchanged. -/
def search_with_context_state (documents : List Document) (query : Str)
    (context : UserContext) :
    List AdaptedResult × List Document × UserContext :=
  (search_with_context documents query context, documents, context)

theorem tokenize_tokens_clean (s : Str) :
    ∀ t ∈ tokenize s, t ≠ [] ∧ ∀ c ∈ t, c ≠ ' ' := by
  intro t ht
  refine ⟨?_, fun c hc => (mem_token_chars s t ht c hc).1⟩
  have ht2 := ht
  rw [tokenize_eq_map] at ht2
  have h2 := (List.mem_filter.1 ht2).2
  intro hnil
  subst hnil
  simp at h2

/-! Concrete corpora and contexts used by the claim instances. -/

/-- The one-document corpus of the spec's end-to-end example. -/
def specDoc : Document :=
  { id := 1, title := str "Кафе Перлина", content := str "смачна їжа",
    location := str "Kyiv", category := str "food", time_tag := str "any" }

/-- The user context of the spec's end-to-end example. -/
def specCtx : UserContext :=
  { query_history := [str "кафе хороше"], location := str "Kyiv",
    time_segment := str "any", preferences := [] }

/-- A document tagged "any" whose location does not match and whose
category is untracked. -/
def c2Doc : Document :=
  { id := 2, title := str "hello", content := str "world",
    location := str "Lviv", category := str "misc", time_tag := str "any" }

/-- A context with segment "any", empty history and no preferences. -/
def c2Ctx : UserContext :=
  { query_history := [], location := str "Kyiv",
    time_segment := str "any", preferences := [] }

/-- The single result of searching `[c2Doc]` for "hello" under `c2Ctx`. -/
def c2Result : AdaptedResult :=
  { doc := c2Doc, base_score := 1, final_score := 13/10,
    context_info :=
      { matched_location := false, time_segment := str "any",
        doc_time_tag := str "any", category_weight := 1 } }

/-- A morning-tagged document with unmatched location and untracked
category. -/
def c3Doc : Document :=
  { id := 3, title := str "hello", content := str "world",
    location := str "Lviv", category := str "misc", time_tag := str "morning" }

/-- A context carrying the invalid time segment "night". -/
def c3Ctx : UserContext :=
  { query_history := [], location := str "Kyiv",
    time_segment := str "night", preferences := [] }

/-- The single result of searching `[c3Doc]` for "hello" under `c3Ctx`. -/
def c3Result : AdaptedResult :=
  { doc := c3Doc, base_score := 1, final_score := 9/10,
    context_info :=
      { matched_location := false, time_segment := str "night",
        doc_time_tag := str "morning", category_weight := 1 } }

/-- A context with two food-keyword history queries, one news-keyword
query, and the explicit preference food ↦ 2.0. -/
def c6Ctx : UserContext :=
  { query_history := [str "кафе", str "ресторан біля дому", str "новини дня"],
    location := str "Kyiv", time_segment := str "any",
    preferences := [(str "food", 2)] }

/-- A complete raw record without a `time_tag` field. -/
def c8Good : RawRecord :=
  { id := some 1, title := some (str "t"), content := some (str "c"),
    location := some (str "Kyiv"), category := some (str "food"),
    time_tag := none }

/-- The same record with the required `id` field removed. -/
def c8Bad : RawRecord :=
  { id := none, title := some (str "t"), content := some (str "c"),
    location := some (str "Kyiv"), category := some (str "food"),
    time_tag := none }

/-! The claims. -/

/-- C2 (amended): the time multiplier of `search_with_context` is 1.3
whenever the document's `time_tag` equals the context's `time_segment`
(including when both are "any", since the equality branch is tested
first), 1.0 when the tag is "any" and differs from the segment, and 0.9
otherwise; and every result's final score is its base score times the
location factor, this time multiplier, and its category weight. -/
theorem c2_time_factor :
    (∀ tag seg : Str, tag = seg → timeFactor tag seg = 13/10)
    ∧ (∀ tag seg : Str, tag ≠ seg → tag = str "any" → timeFactor tag seg = 1)
    ∧ (∀ tag seg : Str, tag ≠ seg → tag ≠ str "any" → timeFactor tag seg = 9/10)
    ∧ (∀ (documents : List Document) (query : Str) (context : UserContext),
        ∀ r ∈ search_with_context documents query context,
          r.final_score
            = r.base_score
              * (if strLower r.doc.location = strLower context.location then 1.5 else 1)
              * timeFactor r.doc.time_tag context.time_segment
              * dictGet (combinePrefs (build_history_preferences context)
                  context.preferences) r.doc.category 1) := by
  refine ⟨?_, ?_, ?_, ?_⟩
  · intro tag seg h
    simp only [timeFactor, if_pos h]
    norm_num
  · intro tag seg h1 h2
    simp only [timeFactor]
    rw [if_neg h1, if_pos h2]
  · intro tag seg h1 h2
    simp only [timeFactor]
    rw [if_neg h1, if_neg h2]
    norm_num
  · intro documents query context r hr
    exact (swc_result_decompose documents query context r hr).1

/-- C3 (amended): an invalid `time_segment` is not rejected and the
comparison never matches a validly tagged document, but the fallthrough is
not always neutral: a document tagged "any" gets multiplier 1.0 (so its
final score is base × location × category), while a document whose tag
differs from the segment and is not "any" gets the 0.9 penalty. -/
theorem c3_invalid_segment (documents : List Document) (query : Str)
    (context : UserContext)
    (hseg : context.time_segment ∉ [str "morning", str "evening", str "any"]) :
    ∀ r ∈ search_with_context documents query context,
      (r.doc.time_tag = str "any" →
        r.final_score = r.base_score
          * (if strLower r.doc.location = strLower context.location then 1.5 else 1)
          * dictGet (combinePrefs (build_history_preferences context) context.preferences)
              r.doc.category 1)
      ∧ (r.doc.time_tag ≠ context.time_segment → r.doc.time_tag ≠ str "any" →
        r.final_score = r.base_score
          * (if strLower r.doc.location = strLower context.location then 1.5 else 1)
          * (9/10)
          * dictGet (combinePrefs (build_history_preferences context) context.preferences)
              r.doc.category 1) := by
  intro r hr
  have hd := (swc_result_decompose documents query context r hr).1
  constructor
  · intro htag
    have hne : r.doc.time_tag ≠ context.time_segment := by
      rw [htag]
      intro hh
      apply hseg
      rw [← hh]
      simp
    rw [hd]
    simp only [timeFactor, if_neg hne, if_pos htag]
    ring
  · intro h1 h2
    rw [hd]
    simp only [timeFactor, if_neg h1, if_neg h2]
    norm_num

theorem mem_search_fields (docs : List Document) (q : Str) (r : BaseResult)
    (hr : r ∈ search docs q) :
    ∃ doc ∈ docs, 0 < tokenScore (tokenize q) (docLowerText doc)
      ∧ r.doc = doc ∧ r.base_score = tokenScore (tokenize q) (docLowerText doc) := by
  obtain ⟨d, hd, hpos, heq⟩ := (mem_search_iff docs q r).1 hr
  exact ⟨d, hd, hpos, by rw [heq], by rw [heq]⟩

theorem base_score_eq_count (documents : List Document) (query : Str) :
    ∀ r ∈ search documents query,
      r.base_score
        = (((tokenize query).countP (fun t => substrIn t (docLowerText r.doc))) : ℚ)
      ∧ 0 < r.base_score := by
  intro r hr
  obtain ⟨d, _, hpos, hdoc, hscore⟩ := mem_search_fields documents query r hr
  constructor
  · rw [hscore, hdoc, tokenScore_eq_countP]
  · rw [hscore]
    exact hpos

theorem positive_count_in_results (documents : List Document) (query : Str) :
    ∀ doc ∈ documents,
      0 < ((tokenize query).countP (fun t => substrIn t (docLowerText doc))) →
      ∃ r ∈ search documents query, r.doc = doc := by
  intro doc hd hpos
  refine ⟨⟨doc, tokenScore (tokenize query) (docLowerText doc)⟩, ?_, rfl⟩
  rw [mem_search_iff]
  refine ⟨doc, hd, ?_, rfl⟩
  rw [tokenScore_eq_countP]
  exact_mod_cast hpos

/-- C4: every result of the base search scores exactly the number of query
tokens (duplicates counted) contained as substrings in the lowercased
`title + " " + content` of its document; zero-scored documents are
excluded while positively scored ones appear; and a query with no tokens
yields the empty result list. -/
theorem base_score_counts_contained_tokens (documents : List Document) (query : Str) :
    (∀ r ∈ search documents query,
        r.base_score
          = (((tokenize query).countP (fun t => substrIn t (docLowerText r.doc))) : ℚ)
        ∧ 0 < r.base_score)
    ∧ (∀ doc ∈ documents,
        0 < ((tokenize query).countP (fun t => substrIn t (docLowerText doc))) →
        ∃ r ∈ search documents query, r.doc = doc)
    ∧ (tokenize query = [] → search documents query = []) :=
  ⟨base_score_eq_count documents query, positive_count_in_results documents query,
   search_empty_of_no_tokens documents query⟩

/-- C5: the base search is sorted descending by base score and is a stable
permutation of its pre-sort candidate list, which itself preserves the
original document order; the context search is sorted descending by final
score and is a stable permutation of the adapted base-result list (which,
being a map over the base results, preserves their order). -/
theorem results_sorted_and_stable (documents : List Document) (query : Str)
    (context : UserContext) :
    (search documents query).Pairwise (fun a b => b.base_score ≤ a.base_score)
    ∧ (∀ s : ℚ, (search documents query).filter (fun r => decide (r.base_score = s))
        = (searchLoop (tokenize query) documents).filter
            (fun r => decide (r.base_score = s)))
    ∧ ((searchLoop (tokenize query) documents).map (fun r => r.doc)).Sublist documents
    ∧ (search_with_context documents query context).Pairwise
        (fun a b => b.final_score ≤ a.final_score)
    ∧ (∀ s : ℚ, (search_with_context documents query context).filter
          (fun r => decide (r.final_score = s))
        = ((search documents query).map
            (adaptItem context (combinePrefs (build_history_preferences context)
              context.preferences))).filter (fun r => decide (r.final_score = s))) := by
  refine ⟨?_, ?_, searchLoop_doc_sublist _ _, ?_, ?_⟩
  · exact sortByDesc_pairwise (fun r => r.base_score) (searchLoop (tokenize query) documents)
  · intro s
    exact sortByDesc_filter_key (fun r => r.base_score) (searchLoop (tokenize query) documents) s
  · rw [search_with_context_eq]
    exact sortByDesc_pairwise _ _
  · intro s
    rw [search_with_context_eq]
    exact sortByDesc_filter_key _ _ _

/-- C6: each tracked category's history weight is `1.0 + n*0.5` for a
positive trigger count `n` and `1.0` otherwise; untracked categories
default to `1.0`; merging multiplies each explicit `(category, weight)`
pair into the corresponding weight and leaves absent categories
unchanged. -/
theorem history_and_explicit_preferences (ctx : UserContext)
    (hnd : (ctx.preferences.map Prod.fst).Nodup) :
    dictGet (build_history_preferences ctx) (str "food") 1
        = histWeight (ctx.query_history.countP trigFood)
    ∧ dictGet (build_history_preferences ctx) (str "news") 1
        = histWeight (ctx.query_history.countP trigNews)
    ∧ dictGet (build_history_preferences ctx) (str "education") 1
        = histWeight (ctx.query_history.countP trigEducation)
    ∧ dictGet (build_history_preferences ctx) (str "sport") 1
        = histWeight (ctx.query_history.countP trigSport)
    ∧ (∀ k : Str, k ∉ [str "food", str "news", str "education", str "sport"] →
        dictGet (build_history_preferences ctx) k 1 = 1)
    ∧ (∀ (k : Str) (w : ℚ), (k, w) ∈ ctx.preferences →
        dictGet (combinePrefs (build_history_preferences ctx) ctx.preferences) k 1
          = dictGet (build_history_preferences ctx) k 1 * w)
    ∧ (∀ k : Str, ¬ hasKey ctx.preferences k = true →
        dictGet (combinePrefs (build_history_preferences ctx) ctx.preferences) k 1
          = dictGet (build_history_preferences ctx) k 1) :=
  ⟨build_get_food ctx, build_get_news ctx, build_get_education ctx,
   build_get_sport ctx, fun k hk => build_get_of_not_tracked ctx k hk,
   fun _ _ hm => dictGet_combinePrefs_of_mem _ _ _ _ hnd hm,
   fun _ hk => dictGet_combinePrefs_of_not_key _ _ _ _ hk⟩

/-- C7: the sequential separator replacement of `tokenize` is the one-pass
map that sends every separator character to a space, after lowercasing,
followed by splitting on spaces and dropping empty fragments (preserving
order and duplicates); the empty string and a separators-only string
tokenize to nothing, and "Hello, World!" tokenizes to ["hello", "world"]. -/
theorem tokenize_spec_behavior :
    (∀ s : Str, tokenize s
      = (splitSp ((strLower s).map (fun c => if c ∈ separators then ' ' else c))).filter
          (fun t => ¬t.isEmpty))
    ∧ tokenize (str "") = []
    ∧ tokenize (str ".,;:!?()") = []
    ∧ tokenize (str "Hello, World!") = [str "hello", str "world"] :=
  ⟨tokenize_eq_map, by decide, by decide, by decide⟩

/-- C8 (amended): a record with all required fields loads, with `time_tag`
defaulting to "any" when absent; a record missing a required field makes
the whole load fail fast with an error naming the first missing required
field in access order — but, like Python's `KeyError`, the error names
only the field, not the record's index. -/
theorem load_documents_field_errors :
    (∀ r : RawRecord, requiredComplete r = true →
      loadRecord r = Except.ok
        { id := r.id.getD 0, title := r.title.getD [], content := r.content.getD [],
          location := r.location.getD [], category := r.category.getD [],
          time_tag := r.time_tag.getD (str "any") })
    ∧ (∀ r : RawRecord, ¬ requiredComplete r = true →
        loadRecord r = Except.error (firstMissing r))
    ∧ (∀ (pre : List RawRecord) (bad : RawRecord) (post : List RawRecord),
        (∀ r ∈ pre, requiredComplete r = true) → ¬ requiredComplete bad = true →
        load_documents (pre ++ bad :: post) = Except.error (firstMissing bad)) :=
  ⟨loadRecord_complete, loadRecord_incomplete, load_documents_fail_fast⟩

/-- C9: joining the tokens of any string with single spaces and tokenizing
again returns exactly the original token list. -/
theorem tokenize_idempotent (s : Str) :
    tokenize (joinSp (tokenize s)) = tokenize s := by
  have hclean := tokenize_tokens_clean s
  have hlow : strLower (joinSp (tokenize s)) = joinSp (tokenize s) := by
    have hfix : ∀ c ∈ joinSp (tokenize s), pyLowerChar c = c := by
      intro c hcm
      rcases mem_joinSp _ c hcm with rfl | ⟨t, ht, hct⟩
      · decide
      · exact (mem_token_chars s t ht c hct).2.2
    calc List.map pyLowerChar (joinSp (tokenize s))
        = List.map (fun c => c) (joinSp (tokenize s)) := List.map_congr_left hfix
      _ = joinSp (tokenize s) := List.map_id' _
  have hrep : (joinSp (tokenize s)).map (fun c => if c ∈ separators then ' ' else c)
      = joinSp (tokenize s) := by
    have hfix : ∀ c ∈ joinSp (tokenize s),
        (if c ∈ separators then ' ' else c) = c := by
      intro c hcm
      rcases mem_joinSp _ c hcm with rfl | ⟨t, ht, hct⟩
      · rw [if_neg (by decide)]
      · rw [if_neg (mem_token_chars s t ht c hct).2.1]
    calc (joinSp (tokenize s)).map (fun c => if c ∈ separators then ' ' else c)
        = List.map (fun c => c) (joinSp (tokenize s)) := List.map_congr_left hfix
      _ = joinSp (tokenize s) := List.map_id' _
  rw [tokenize_eq_map, hlow, hrep, splitSp_join_filter _ hclean]

/-- C10: the state-passing form of `search_with_context` returns the
engine's document list and every field of the caller's context exactly as
they were passed in: the call never mutates its inputs. -/
theorem search_with_context_preserves_inputs (documents : List Document)
    (query : Str) (context : UserContext) :
    (search_with_context_state documents query context).2.1 = documents
    ∧ ((search_with_context_state documents query context).2.2).query_history
        = context.query_history
    ∧ ((search_with_context_state documents query context).2.2).location
        = context.location
    ∧ ((search_with_context_state documents query context).2.2).time_segment
        = context.time_segment
    ∧ ((search_with_context_state documents query context).2.2).preferences
        = context.preferences :=
  ⟨rfl, rfl, rfl, rfl, rfl⟩

/-! Concrete instances of the claims, settled by kernel evaluation.
The arithmetic of `Rat` is unsealed here so that `decide` can reduce it. -/

attribute [local semireducible] Rat.ofScientific Rat.mul Rat.inv Rat.add Rat.sub

/-- C1 counterexample: on the spec's end-to-end corpus and context the
single result's final score is 2.925 = 117/40, not 2.25 = 9/4; the claimed
conjunction (one result, location factor 1.5, time factor 1.0, food weight
1.5, final score 2.25) is false because the time factor is 1.3. -/
theorem c1_end_to_end_counterexample :
    (search_with_context [specDoc] (str "кафе") specCtx).map (fun r => r.final_score)
      = [117/40]
    ∧ ((117 : ℚ)/40) ≠ 9/4 := by
  refine ⟨by decide, by decide⟩

/-- C1 (amended): on the spec's end-to-end corpus and context,
`search_with_context` returns exactly one result, with base score 1.0,
matched location (factor 1.5), food category weight 1.5, and — because the
document's "any" tag equals the context's "any" segment, so the equality
branch fires first — time factor 1.3 and final score
1.0 × 1.5 × 1.3 × 1.5 = 2.925. -/
theorem c1_end_to_end :
    search_with_context [specDoc] (str "кафе") specCtx
      = [{ doc := specDoc, base_score := 1, final_score := 117/40,
           context_info :=
             { matched_location := true, time_segment := str "any",
               doc_time_tag := str "any", category_weight := 3/2 } }]
    ∧ timeFactor specDoc.time_tag specCtx.time_segment = 13/10
    ∧ (1 : ℚ) * (3/2) * (13/10) * (3/2) = 117/40 := by
  refine ⟨by decide, by decide, by decide⟩

/-- C2 counterexample: for a document whose `time_tag` is "any" and a
context whose `time_segment` is also "any", the time multiplier applied by
`search_with_context` is 1.3, not the claimed 1.0: with base score 1,
location factor 1 and category weight 1, the final score is 1.3 ≠ 1. -/
theorem c2_any_any_counterexample :
    c2Doc.time_tag = str "any"
    ∧ c2Ctx.time_segment = str "any"
    ∧ (search_with_context [c2Doc] (str "hello") c2Ctx).map (fun r => r.base_score) = [1]
    ∧ (search_with_context [c2Doc] (str "hello") c2Ctx).map (fun r => r.final_score)
        = [13/10]
    ∧ ((13 : ℚ)/10) ≠ 1 := by
  refine ⟨rfl, rfl, by decide, by decide, by decide⟩

/-- C2 witness: the three multiplier cases at concrete tags, and the score
decomposition at the concrete result of a concrete run. -/
theorem c2_time_factor_witness :
    timeFactor (str "any") (str "any") = 13/10
    ∧ timeFactor (str "any") (str "morning") = 1
    ∧ timeFactor (str "morning") (str "evening") = 9/10
    ∧ c2Result ∈ search_with_context [c2Doc] (str "hello") c2Ctx
    ∧ c2Result.final_score
        = c2Result.base_score
          * (if strLower c2Result.doc.location = strLower c2Ctx.location then 1.5 else 1)
          * timeFactor c2Result.doc.time_tag c2Ctx.time_segment
          * dictGet (combinePrefs (build_history_preferences c2Ctx) c2Ctx.preferences)
              c2Result.doc.category 1 :=
  ⟨c2_time_factor.1 _ _ rfl,
   c2_time_factor.2.1 _ _ (by decide) rfl,
   c2_time_factor.2.2.1 _ _ (by decide) (by decide),
   by decide,
   c2_time_factor.2.2.2 [c2Doc] (str "hello") c2Ctx c2Result (by decide)⟩

/-- C3 counterexample: with the invalid segment "night" and a
morning-tagged document, `search_with_context` applies the 0.9 penalty,
not the claimed neutral 1.0: the final score is 0.9 while
base × location × category = 1. -/
theorem c3_invalid_segment_counterexample :
    c3Ctx.time_segment ∉ [str "morning", str "evening", str "any"]
    ∧ (search_with_context [c3Doc] (str "hello") c3Ctx).map (fun r => r.final_score)
        = [9/10]
    ∧ (search_with_context [c3Doc] (str "hello") c3Ctx).map
        (fun r => r.base_score
          * (if strLower r.doc.location = strLower c3Ctx.location then (1.5 : ℚ) else 1)
          * dictGet (combinePrefs (build_history_preferences c3Ctx) c3Ctx.preferences)
              r.doc.category 1) = [1]
    ∧ ((9 : ℚ)/10) ≠ 1 := by
  refine ⟨by decide, by decide, by decide, by decide⟩

/-- C3 witness: the amended statement applied to the concrete invalid
segment "night", the morning-tagged document, and its concrete result. -/
theorem c3_invalid_segment_witness :
    c3Ctx.time_segment ∉ [str "morning", str "evening", str "any"]
    ∧ c3Result ∈ search_with_context [c3Doc] (str "hello") c3Ctx
    ∧ c3Result.final_score
        = c3Result.base_score
          * (if strLower c3Result.doc.location = strLower c3Ctx.location then 1.5 else 1)
          * (9/10)
          * dictGet (combinePrefs (build_history_preferences c3Ctx) c3Ctx.preferences)
              c3Result.doc.category 1 :=
  ⟨by decide, by decide,
   (c3_invalid_segment [c3Doc] (str "hello") c3Ctx (by decide) c3Result
     (by decide)).2 (by decide) (by decide)⟩

/-- C4 witness: the score characterization at the concrete result of the
end-to-end corpus, and the empty-tokenization case at the empty query. -/
theorem base_score_counts_witness :
    ((⟨specDoc, 1⟩ : BaseResult) ∈ search [specDoc] (str "кафе"))
    ∧ (⟨specDoc, (1 : ℚ)⟩ : BaseResult).base_score
        = (((tokenize (str "кафе")).countP
            (fun t => substrIn t (docLowerText specDoc))) : ℚ)
    ∧ (0 : ℚ) < (⟨specDoc, (1 : ℚ)⟩ : BaseResult).base_score
    ∧ (tokenize (str "") = [] → search [specDoc] (str "") = []) := by
  have h := (base_score_counts_contained_tokens [specDoc] (str "кафе")).1
    ⟨specDoc, 1⟩ (by decide)
  exact ⟨by decide, h.1, h.2,
    (base_score_counts_contained_tokens [specDoc] (str "")).2.2⟩

/-- C6 witness: the weight characterization at a concrete context with two
food queries, one news query and the explicit preference food ↦ 2. -/
theorem history_preferences_witness :
    (c6Ctx.preferences.map Prod.fst).Nodup
    ∧ dictGet (build_history_preferences c6Ctx) (str "food") 1
        = histWeight (c6Ctx.query_history.countP trigFood)
    ∧ dictGet (combinePrefs (build_history_preferences c6Ctx) c6Ctx.preferences)
        (str "food") 1
        = dictGet (build_history_preferences c6Ctx) (str "food") 1 * 2
    ∧ dictGet (combinePrefs (build_history_preferences c6Ctx) c6Ctx.preferences)
        (str "news") 1
        = dictGet (build_history_preferences c6Ctx) (str "news") 1 :=
  ⟨by decide,
   (history_and_explicit_preferences c6Ctx (by decide)).1,
   (history_and_explicit_preferences c6Ctx (by decide)).2.2.2.2.2.1 (str "food") 2
     (by decide),
   (history_and_explicit_preferences c6Ctx (by decide)).2.2.2.2.2.2 (str "news")
     (by decide)⟩

/-- C8 counterexample: the same record missing `id` produces the very same
error whether it fails at index 0 or at index 1, so the load-time error
identifies the missing field but cannot identify the record's index. -/
theorem load_error_lacks_index_counterexample :
    load_documents [c8Bad] = Except.error (str "id")
    ∧ load_documents [c8Good, c8Bad] = Except.error (str "id")
    ∧ load_documents [c8Bad] = load_documents [c8Good, c8Bad] :=
  ⟨rfl, rfl, rfl⟩

/-- C8 witness: the amended statement at a concrete good record (whose
missing `time_tag` defaults to "any") and a concrete record missing
`id`. -/
theorem load_documents_witness :
    requiredComplete c8Good = true
    ∧ ¬ requiredComplete c8Bad = true
    ∧ load_documents ([c8Good] ++ c8Bad :: []) = Except.error (firstMissing c8Bad)
    ∧ loadRecord c8Good = Except.ok
        { id := 1, title := str "t", content := str "c", location := str "Kyiv",
          category := str "food", time_tag := str "any" } := by
  refine ⟨by decide, by decide,
    load_documents_field_errors.2.2 [c8Good] c8Bad [] (by decide) (by decide), ?_⟩
  have h := load_documents_field_errors.1 c8Good (by decide)
  rw [h]
  rfl

end ContextSearch
